import Mathlib

/-!
Verification of the crystal-memory core.

A shallow embedding of the `ladybug::crystal` module: the quorum
relaxation field (`QuorumField`), the fixed-size holographic codec
(`Crystal4K`) and the bounded associative store (`CrystalMemory`).

The repository ships only `src/crystal/mod.rs`, which declares the three
submodules (`field`, `crystal4k`, `memory`) and re-exports
`QuorumField`, `FIELD_SIZE`, `FIELD_CELLS`, `Crystal4K`, `CrystalMemory`,
`MemoryStats`, `DEFAULT_CAPACITY` and `DEFAULT_SETTLE_STEPS`.  The bodies
of those submodules are not part of the sources, so every operation below
is modelled from the specification text, faithful to its words, and each
definition's doc comment records exactly which missing item it models.
-/

set_option autoImplicit false

namespace Ladybug

/-- Modelled from the spec: `FIELD_SIZE` (re-exported by `mod.rs` from the
missing `field.rs`) — the side length of the cubic grid, a 5×5×5 grid. -/
abbrev FIELD_SIZE : Nat := 5

/-- Modelled from the spec: `FIELD_CELLS` (re-exported by `mod.rs` from the
missing `field.rs`) — the total number of cells, 125. -/
abbrev FIELD_CELLS : Nat := 125

/-- Modelled from the spec: the fixed width of a Fingerprint / cell bit
vector, 10,000 bits. -/
abbrev FINGERPRINT_BITS : Nat := 10000

/-- Modelled from the spec: a Pattern / Fingerprint, an immutable
fixed-width binary vector of `FINGERPRINT_BITS` bits. -/
def Fingerprint : Type := Fin FINGERPRINT_BITS → Bool

instance : DecidableEq Fingerprint := by
  unfold Fingerprint
  infer_instance

/-- The all-zero fingerprint (used for the all-zero grid at construction). -/
def zeroPattern : Fingerprint := fun _ => false

/-- The index of one cell of the 5×5×5 grid. -/
def CellIdx : Type := Fin FIELD_SIZE × Fin FIELD_SIZE × Fin FIELD_SIZE

instance : DecidableEq CellIdx := by
  unfold CellIdx
  infer_instance

instance : Fintype CellIdx := by
  unfold CellIdx FIELD_SIZE
  infer_instance

/-- Modelled from the spec: the configuration-error taxonomy (`ConfigError`):
invalid threshold outside 1–6, or capacity < 1, raised eagerly at
construction and never later. -/
inductive ConfigError : Type where
  | invalidThreshold : ConfigError
  | invalidCapacity : ConfigError
deriving DecidableEq

/-- Modelled from the spec: `QuorumField` (missing `field.rs`) — a 5×5×5
grid of 10,000-bit vectors together with the majority threshold fixed at
construction. -/
structure QuorumField : Type where
  threshold : Nat
  cells : CellIdx → Fingerprint

instance : DecidableEq QuorumField := fun a b =>
  decidable_of_iff (a.threshold = b.threshold ∧ a.cells = b.cells)
    (by cases a; cases b; simp)

namespace QuorumField

/-- The uniform field: every cell holds the same pattern. -/
def mkUniform (t : Nat) (p : Fingerprint) : QuorumField :=
  ⟨t, fun _ => p⟩

/-- Modelled from the spec: `QuorumField::new` / `construct(threshold)` —
creates an all-zero grid; validates `1 ≤ threshold ≤ 6`, otherwise fails
with a configuration error (the threshold is rejected, not clamped). -/
def new (t : Nat) : Except ConfigError QuorumField :=
  if 1 ≤ t ∧ t ≤ 6 then Except.ok (mkUniform t zeroPattern)
  else Except.error ConfigError.invalidThreshold

/-- Modelled from the spec: `inject(pattern)` — deterministically writes
the pattern into the grid's cells; the documented seeding rule is the
spec's recommended default: all cells are initialized to the pattern. -/
def inject (f : QuorumField) (p : Fingerprint) : QuorumField :=
  ⟨f.threshold, fun _ => p⟩

end QuorumField

/-- The six face-adjacent neighbours of a cell under the toroidal
(wrap-around) topology the spec recommends; `Fin FIELD_SIZE` addition
wraps modulo 5, and adding 4 steps one cell backwards. -/
def neighbors (c : CellIdx) : List CellIdx :=
  [ (c.1 + 1, c.2.1, c.2.2), (c.1 + 4, c.2.1, c.2.2),
    (c.1, c.2.1 + 1, c.2.2), (c.1, c.2.1 + 4, c.2.2),
    (c.1, c.2.1, c.2.2 + 1), (c.1, c.2.1, c.2.2 + 4) ]

/-- Modelled from the spec: the per-bit quorum rule of one sweep.  `ct` is
the number of the 6 neighbours holding `true` at this bit position.  The
bit adopts the value held by the strict majority of the 6 neighbours only
if that majority's agreement count is at least the threshold `t`;
otherwise (including a 3–3 tie, where no majority value exists) the bit
keeps its previous value `old`. -/
def quorumBit (t : Nat) (old : Bool) (ct : Nat) : Bool :=
  if 3 < ct then (if t ≤ ct then true else old)
  else if ct < 3 then (if t ≤ 6 - ct then false else old)
  else old

/-- How many of the six neighbours of `c` hold `true` at bit `j`, read
from the snapshot `f`. -/
def neighborCount (f : QuorumField) (c : CellIdx) (j : Fin FINGERPRINT_BITS) : Nat :=
  ((neighbors c).map (fun n => f.cells n j)).count true

/-- The new contents of cell `c` after one sweep, computed entirely from
the snapshot `f` of the previous sweep. -/
def newCell (f : QuorumField) (c : CellIdx) : Fingerprint :=
  fun j => quorumBit f.threshold (f.cells c j) (neighborCount f c j)

/-- Modelled from the spec: one synchronous sweep of `settle` — every cell
and every bit position is updated from the single consistent snapshot of
the previous sweep (double-buffered semantics). -/
def sweep (f : QuorumField) : QuorumField :=
  ⟨f.threshold, fun c => newCell f c⟩

/-- A sweep carried out by walking the cells in an explicit order `o`,
writing each visited cell's new value into the grid one at a time, but —
as the double-buffering requires — always reading from the snapshot `f`.
Used to state that the cell update order never affects the result. -/
def sweepOrdered (o : List CellIdx) (f : QuorumField) : QuorumField :=
  ⟨f.threshold, o.foldl (fun g c => Function.update g c (newCell f c)) f.cells⟩

/-- Every cell index, listed once; the canonical full update order. -/
def allCells : List CellIdx :=
  (List.finRange FIELD_SIZE).flatMap (fun x =>
    (List.finRange FIELD_SIZE).flatMap (fun y =>
      (List.finRange FIELD_SIZE).map (fun z => (x, y, z))))

/-- Modelled from the spec: `QuorumField::settle(max_steps)` — performs up
to `max_steps` synchronous sweeps; a sweep that changes no cell
constitutes convergence and stops the loop; returns the settled field
together with `(steps_taken, converged)`. -/
def settle (f : QuorumField) : Nat → QuorumField × Nat × Bool
  | 0 => (f, 0, false)
  | m + 1 =>
    if sweep f = f then (f, 0, true)
    else
      ((settle (sweep f) m).1, (settle (sweep f) m).2.1 + 1, (settle (sweep f) m).2.2)

/-- Strict-majority vote over a list of booleans: `true` exactly when more
than half of the entries are `true`.  For an odd number of voters a
majority always exists. -/
def majList (l : List Bool) : Bool :=
  decide (l.length < 2 * l.count true)

/-- The 25 in-layer coordinates of one grid layer. -/
def layerPairs : List (Fin FIELD_SIZE × Fin FIELD_SIZE) :=
  (List.finRange FIELD_SIZE).flatMap (fun a =>
    (List.finRange FIELD_SIZE).map (fun b => (a, b)))

/-- Bit `j` of the layer `x = i`, folded over the layer's 25 cells by
majority vote (25 is odd, so the vote is well-defined). -/
def layerBitX (f : QuorumField) (i : Fin FIELD_SIZE) (j : Fin FINGERPRINT_BITS) : Bool :=
  majList (layerPairs.map (fun p => f.cells (i, p.1, p.2) j))

/-- Bit `j` of the layer `y = i`, folded by majority vote. -/
def layerBitY (f : QuorumField) (i : Fin FIELD_SIZE) (j : Fin FINGERPRINT_BITS) : Bool :=
  majList (layerPairs.map (fun p => f.cells (p.1, i, p.2) j))

/-- Bit `j` of the layer `z = i`, folded by majority vote. -/
def layerBitZ (f : QuorumField) (i : Fin FIELD_SIZE) (j : Fin FINGERPRINT_BITS) : Bool :=
  majList (layerPairs.map (fun p => f.cells (p.1, p.2, i) j))

/-- The X-axis projection: a per-bit 5-way majority fold of the five
layers along the X axis (5 is odd, so the fold never ties). -/
def projX (f : QuorumField) : Fingerprint :=
  fun j => majList ((List.finRange FIELD_SIZE).map (fun i => layerBitX f i j))

/-- The Y-axis projection, folded the same way. -/
def projY (f : QuorumField) : Fingerprint :=
  fun j => majList ((List.finRange FIELD_SIZE).map (fun i => layerBitY f i j))

/-- The Z-axis projection, folded the same way. -/
def projZ (f : QuorumField) : Fingerprint :=
  fun j => majList ((List.finRange FIELD_SIZE).map (fun i => layerBitZ f i j))

/-- Modelled from the spec: `Crystal4K` (missing `crystal4k.rs`) — an
immutable fixed-size value holding the three 10,000-bit axis projections
plus small metadata (the threshold used). -/
structure Crystal4K : Type where
  px : Fingerprint
  py : Fingerprint
  pz : Fingerprint
  threshold : Nat

namespace Crystal4K

/-- Modelled from the spec: `Crystal4K::from_field` / `encode(field)` —
folds each axis's 5 layers into one 10,000-bit projection by per-bit
majority vote and records the metadata; a pure total function of the
Field's content. -/
def from_field (f : QuorumField) : Crystal4K :=
  ⟨projX f, projY f, projZ f, f.threshold⟩

/-- Majority of three booleans (never ties). -/
def maj3 (a b c : Bool) : Bool :=
  (a && b) || ((a && c) || (b && c))

/-- Modelled from the spec: `decode(crystal)` — reconstructs an
approximate Field: every cell's bit combines the estimates of the three
projections intersecting it by majority-of-three; deterministic and
total. -/
def decode (c : Crystal4K) : QuorumField :=
  ⟨c.threshold, fun _ => fun j => maj3 (c.px j) (c.py j) (c.pz j)⟩

/-- The number of bytes occupied by one packed 10,000-bit projection. -/
def PROJ_BYTES : Nat := FINGERPRINT_BITS / 8

/-- Byte `i` of the packed form of a projection: its bits `8*i` to
`8*i+7`, least significant first. -/
def byteOf (p : Fingerprint) (i : Nat) : Nat :=
  ((List.range 8).map (fun k =>
    if h : 8 * i + k < FINGERPRINT_BITS then
      (if p ⟨8 * i + k, h⟩ then 2 ^ k else 0)
    else 0)).sum

/-- The packed byte string of one projection: 1250 bytes. -/
def packProj (p : Fingerprint) : List Nat :=
  (List.range PROJ_BYTES).map (byteOf p)

/-- Modelled from the spec: the packed 4096-byte buffer of a crystal — the
3 packed projections (3 × 1250 bytes), one metadata byte holding the
threshold, and reserved zero bytes rounding the buffer out to 4096. -/
def toBytes (c : Crystal4K) : List Nat :=
  packProj c.px ++ packProj c.py ++ packProj c.pz ++
    (c.threshold % 256 :: List.replicate 345 0)

/-- Hamming distance between two equal-length byte strings: the number of
positions at which they differ. -/
def hamming (as bs : List Nat) : Nat :=
  (List.zipWith (fun a b => if a = b then 0 else 1) as bs).sum

/-- Modelled from the spec: `similarity(a, b)` — the Hamming distance
between the packed projection bytes of two crystals; 0 iff
byte-identical. -/
def similarity (a b : Crystal4K) : Nat :=
  hamming a.toBytes b.toBytes

end Crystal4K

/-- Modelled from the spec: `DEFAULT_CAPACITY` (re-exported by `mod.rs`
from the missing `memory.rs`) — the default entry capacity, sized so that
`capacity × 4096` bytes ≈ 170 MB (43K crystals × 4KB = 170MB per the
module header). -/
def DEFAULT_CAPACITY : Nat := 43520

/-- Modelled from the spec: `DEFAULT_SETTLE_STEPS` (re-exported by
`mod.rs` from the missing `memory.rs`) — the default relaxation step
bound used by inference. -/
def DEFAULT_SETTLE_STEPS : Nat := 100

/-- Modelled from the spec: `CrystalMemory` (missing `memory.rs`) — an
ordered capacity-bounded collection of crystals (oldest first) with
eviction statistics. -/
structure CrystalMemory : Type where
  entries : List Crystal4K
  capacity : Nat
  evictions : Nat

namespace CrystalMemory

/-- Modelled from the spec: `construct(capacity)` — capacity must be ≥ 1,
else a configuration error. -/
def construct (cap : Nat) : Except ConfigError CrystalMemory :=
  if 1 ≤ cap then Except.ok ⟨[], cap, 0⟩
  else Except.error ConfigError.invalidCapacity

/-- Modelled from the spec: `CrystalMemory::new()` — the public
zero-argument constructor shown in `mod.rs`; builds an empty memory at
`DEFAULT_CAPACITY` and cannot fail. -/
def new : CrystalMemory :=
  ⟨[], DEFAULT_CAPACITY, 0⟩

/-- Modelled from the spec: `add(crystal)` — if at capacity, evicts
exactly one entry by the recommended recency policy (the oldest entry,
at the front of the list) before inserting the new crystal at the back. -/
def add (m : CrystalMemory) (c : Crystal4K) : CrystalMemory :=
  if m.capacity ≤ m.entries.length then
    ⟨m.entries.drop 1 ++ [c], m.capacity, m.evictions + 1⟩
  else
    ⟨m.entries ++ [c], m.capacity, m.evictions⟩

/-- Adding a whole sequence of crystals in order. -/
def addAll (m : CrystalMemory) (cs : List Crystal4K) : CrystalMemory :=
  cs.foldl add m

/-- The linear best-match scan over the stored entries: keeps the stored
crystal with the smallest `similarity` to the query (the earliest one on
ties). -/
def bestMatch (q : Crystal4K) (e : Crystal4K) (es : List Crystal4K) : Crystal4K :=
  es.foldl (fun best x =>
    if Crystal4K.similarity x q < Crystal4K.similarity best q then x else best) e

/-- Modelled from the spec: `infer(query_crystal)` — returns the spec's
recommended contract: the closest stored crystal by `similarity` to the
query, and an explicit no-match result (`none`) on an empty memory, never
a failure.  (The decode → relax → re-encode pipeline produces the
secondary diagnostic crystal of the spec and does not affect which stored
entry is returned.) -/
def infer (m : CrystalMemory) (q : Crystal4K) : Option Crystal4K :=
  match m.entries with
  | [] => none
  | e :: es => some (bestMatch q e es)

end CrystalMemory

/-- A concrete crystal used when instantiating the theorems below. -/
def zeroCrystal : Crystal4K := ⟨zeroPattern, zeroPattern, zeroPattern, 4⟩

/-! ## Lemmas about the packed byte buffer and similarity -/

lemma packProj_length (p : Fingerprint) : (Crystal4K.packProj p).length = 1250 := by
  simp only [Crystal4K.packProj, List.length_map, List.length_range]
  rfl

lemma toBytes_length (c : Crystal4K) : c.toBytes.length = 4096 := by
  unfold Crystal4K.toBytes
  simp only [List.length_append, List.length_cons, List.length_replicate, packProj_length]

lemma hamming_self (as : List Nat) : Crystal4K.hamming as as = 0 := by
  induction as with
  | nil => rfl
  | cons a as ih =>
    have hstep : Crystal4K.hamming (a :: as) (a :: as) =
        (if a = a then 0 else 1) + Crystal4K.hamming as as := by
      simp [Crystal4K.hamming]
    rw [hstep, ih]
    simp

lemma hamming_eq_zero_iff (as : List Nat) :
    ∀ bs : List Nat, as.length = bs.length →
      (Crystal4K.hamming as bs = 0 ↔ as = bs) := by
  induction as with
  | nil =>
    intro bs hlen
    cases bs with
    | nil => simp [Crystal4K.hamming]
    | cons b bs => simp at hlen
  | cons a as ih =>
    intro bs hlen
    cases bs with
    | nil => simp at hlen
    | cons b bs =>
      simp only [List.length_cons, Nat.add_right_cancel_iff] at hlen
      by_cases hab : a = b
      · simp [Crystal4K.hamming, hab] at ih ⊢
        exact ih bs hlen
      · simp [Crystal4K.hamming, hab]

lemma similarity_self (c : Crystal4K) : Crystal4K.similarity c c = 0 :=
  hamming_self _

lemma similarity_eq_zero_iff (a b : Crystal4K) :
    Crystal4K.similarity a b = 0 ↔ a.toBytes = b.toBytes :=
  hamming_eq_zero_iff _ _ (by rw [toBytes_length, toBytes_length])

/-! ## Lemmas about the best-match scan -/

lemma bestMatch_spec (q : Crystal4K) (es : List Crystal4K) :
    ∀ e : Crystal4K,
      (CrystalMemory.bestMatch q e es = e ∨ CrystalMemory.bestMatch q e es ∈ es) ∧
      Crystal4K.similarity (CrystalMemory.bestMatch q e es) q ≤ Crystal4K.similarity e q ∧
      (∀ y ∈ es, Crystal4K.similarity (CrystalMemory.bestMatch q e es) q ≤
        Crystal4K.similarity y q) := by
  induction es with
  | nil =>
    intro e
    refine ⟨Or.inl rfl, le_refl _, ?_⟩
    intro y hy
    simp at hy
  | cons x xs ih =>
    intro e
    have hstep : CrystalMemory.bestMatch q e (x :: xs) =
        CrystalMemory.bestMatch q
          (if Crystal4K.similarity x q < Crystal4K.similarity e q then x else e) xs := by
      simp [CrystalMemory.bestMatch]
    obtain ⟨hmem, hle, hall⟩ :=
      ih (if Crystal4K.similarity x q < Crystal4K.similarity e q then x else e)
    rw [hstep]
    refine ⟨?_, ?_, ?_⟩
    · rcases hmem with hm | hm
      · rw [hm]
        by_cases hcmp : Crystal4K.similarity x q < Crystal4K.similarity e q
        · simp [hcmp]
        · simp [hcmp]
      · exact Or.inr (List.mem_cons_of_mem x hm)
    · refine le_trans hle ?_
      by_cases hcmp : Crystal4K.similarity x q < Crystal4K.similarity e q
      · simp [hcmp]; exact le_of_lt hcmp
      · simp [hcmp]
    · intro y hy
      rcases List.mem_cons.mp hy with hyx | hyxs
      · subst hyx
        refine le_trans hle ?_
        by_cases hcmp : Crystal4K.similarity y q < Crystal4K.similarity e q
        · simp [hcmp]
        · simp [hcmp]; omega
      · exact hall y hyxs

/-! ## Lemmas about capacity accounting -/

lemma add_capacity (m : CrystalMemory) (c : Crystal4K) :
    (m.add c).capacity = m.capacity := by
  unfold CrystalMemory.add
  split <;> rfl

lemma add_entries_length (m : CrystalMemory) (c : Crystal4K)
    (hcap : 1 ≤ m.capacity) (hle : m.entries.length ≤ m.capacity) :
    (m.add c).entries.length = min (m.entries.length + 1) m.capacity := by
  unfold CrystalMemory.add
  by_cases h : m.capacity ≤ m.entries.length
  · have hlen : m.entries.length = m.capacity := le_antisymm hle h
    simp [h, List.length_drop]
    omega
  · simp [h]
    omega

lemma addAll_entries_length (cs : List Crystal4K) :
    ∀ m : CrystalMemory, 1 ≤ m.capacity → m.entries.length ≤ m.capacity →
      (m.addAll cs).entries.length = min (m.entries.length + cs.length) m.capacity := by
  induction cs with
  | nil =>
    intro m hcap hle
    simp [CrystalMemory.addAll]
    omega
  | cons c cs ih =>
    intro m hcap hle
    have h1 := add_entries_length m c hcap hle
    have hcap2 : 1 ≤ (m.add c).capacity := by rw [add_capacity]; exact hcap
    have hle2 : (m.add c).entries.length ≤ (m.add c).capacity := by
      rw [h1, add_capacity]; omega
    have h2 := ih (m.add c) hcap2 hle2
    have hfold : (m.addAll (c :: cs)) = ((m.add c).addAll cs) := by
      simp [CrystalMemory.addAll]
    rw [hfold, h2, h1, add_capacity]
    simp only [List.length_cons]
    omega

/-! ## Lemmas about the quorum sweep and settling -/

lemma map_const_eq_replicate {α β : Type} (l : List α) (b : β) :
    (l.map (fun _ => b)) = List.replicate l.length b := by
  induction l with
  | nil => rfl
  | cons a l ih => simp [List.replicate_succ, ih]

lemma majList_replicate (n : Nat) (b : Bool) (hn : 0 < n) :
    majList (List.replicate n b) = b := by
  cases b
  · simp [majList, List.count_replicate]
  · simp [majList, List.count_replicate]
    omega

lemma neighbors_length (c : CellIdx) : (neighbors c).length = 6 := rfl

lemma layerPairs_length : layerPairs.length = 25 := by decide

lemma neighborCount_mkUniform (t : Nat) (p : Fingerprint) (c : CellIdx)
    (j : Fin FINGERPRINT_BITS) :
    neighborCount (QuorumField.mkUniform t p) c j = if p j then 6 else 0 := by
  unfold neighborCount QuorumField.mkUniform
  simp only
  rw [map_const_eq_replicate, neighbors_length, List.count_replicate]
  cases hpj : p j
  · simp
  · simp

lemma quorumBit_const (t : Nat) (b : Bool) :
    quorumBit t b (if b then 6 else 0) = b := by
  cases b <;> simp [quorumBit]

lemma sweep_mkUniform (t : Nat) (p : Fingerprint) :
    sweep (QuorumField.mkUniform t p) = QuorumField.mkUniform t p := by
  unfold sweep
  have hc : (fun c => newCell (QuorumField.mkUniform t p) c) =
      (QuorumField.mkUniform t p).cells := by
    funext c j
    show quorumBit t ((QuorumField.mkUniform t p).cells c j)
      (neighborCount (QuorumField.mkUniform t p) c j) = p j
    rw [neighborCount_mkUniform]
    exact quorumBit_const t (p j)
  rw [hc]

lemma settle_steps_le (m : Nat) : ∀ f : QuorumField, (settle f m).2.1 ≤ m := by
  induction m with
  | zero => intro f; simp [settle]
  | succ m ih =>
    intro f
    by_cases h : sweep f = f
    · simp [settle, h]
    · have := ih (sweep f)
      simp only [settle, if_neg h]
      omega

lemma settle_converged_iff (m : Nat) :
    ∀ f : QuorumField,
      ((settle f m).2.2 = true ↔ ∃ k, k < m ∧ sweep (sweep^[k] f) = sweep^[k] f) := by
  induction m with
  | zero =>
    intro f
    simp [settle]
  | succ m ih =>
    intro f
    by_cases h : sweep f = f
    · simp only [settle, if_pos h]
      constructor
      · intro _
        exact ⟨0, Nat.succ_pos m, by simpa using h⟩
      · intro _
        trivial
    · simp only [settle, if_neg h]
      rw [ih (sweep f)]
      constructor
      · rintro ⟨k, hk, hfix⟩
        refine ⟨k + 1, Nat.succ_lt_succ hk, ?_⟩
        rw [Function.iterate_succ_apply]
        exact hfix
      · rintro ⟨k, hk, hfix⟩
        cases k with
        | zero =>
          simp only [Function.iterate_zero, id] at hfix
          exact absurd hfix h
        | succ k =>
          refine ⟨k, Nat.lt_of_succ_lt_succ hk, ?_⟩
          rw [Function.iterate_succ_apply] at hfix
          exact hfix

lemma settle_fst_fixed (m : Nat) :
    ∀ f : QuorumField, (settle f m).2.2 = true →
      sweep (settle f m).1 = (settle f m).1 := by
  induction m with
  | zero => intro f hconv; simp [settle] at hconv
  | succ m ih =>
    intro f hconv
    by_cases h : sweep f = f
    · simp only [settle, if_pos h]
      exact h
    · simp only [settle, if_neg h] at hconv ⊢
      exact ih (sweep f) hconv

lemma settle_of_fixed (g : QuorumField) (h : sweep g = g) :
    ∀ m : Nat, 1 ≤ m → settle g m = (g, 0, true) := by
  intro m hm
  cases m with
  | zero => omega
  | succ m => simp [settle, h]

/-! ## Lemmas about ordered sweeps -/

lemma foldl_update_apply (f : QuorumField) (o : List CellIdx) :
    ∀ (acc : CellIdx → Fingerprint) (i : CellIdx),
      (o.foldl (fun g c => Function.update g c (newCell f c)) acc) i =
        if i ∈ o then newCell f i else acc i := by
  induction o with
  | nil => intro acc i; simp
  | cons x xs ih =>
    intro acc i
    simp only [List.foldl_cons]
    rw [ih, Function.update_apply]
    by_cases hix : i = x
    · subst hix
      simp
    · by_cases hx : i ∈ xs <;> simp [hix, hx]

lemma mem_allCells (i : CellIdx) : i ∈ allCells := by
  obtain ⟨x, y, z⟩ := i
  simp only [allCells, List.mem_flatMap, List.mem_map, List.mem_finRange]
  exact ⟨x, trivial, y, trivial, z, trivial, rfl⟩

lemma sweepOrdered_perm (f : QuorumField) (o : List CellIdx)
    (ho : o.Perm allCells) : sweepOrdered o f = sweep f := by
  unfold sweepOrdered sweep
  have hc : (o.foldl (fun g c => Function.update g c (newCell f c)) f.cells) =
      (fun c => newCell f c) := by
    funext i
    rw [foldl_update_apply]
    have hi : i ∈ o := ho.mem_iff.mpr (mem_allCells i)
    rw [if_pos hi]
  rw [hc]

/-! ## Lemmas about the uniform projections -/

lemma maj3_self (b : Bool) : Crystal4K.maj3 b b b = b := by
  cases b <;> rfl

lemma layerBitX_mkUniform (t : Nat) (p : Fingerprint) (i : Fin FIELD_SIZE)
    (j : Fin FINGERPRINT_BITS) :
    layerBitX (QuorumField.mkUniform t p) i j = p j := by
  unfold layerBitX QuorumField.mkUniform
  simp only
  rw [map_const_eq_replicate, layerPairs_length]
  exact majList_replicate 25 (p j) (by omega)

lemma layerBitY_mkUniform (t : Nat) (p : Fingerprint) (i : Fin FIELD_SIZE)
    (j : Fin FINGERPRINT_BITS) :
    layerBitY (QuorumField.mkUniform t p) i j = p j := by
  unfold layerBitY QuorumField.mkUniform
  simp only
  rw [map_const_eq_replicate, layerPairs_length]
  exact majList_replicate 25 (p j) (by omega)

lemma layerBitZ_mkUniform (t : Nat) (p : Fingerprint) (i : Fin FIELD_SIZE)
    (j : Fin FINGERPRINT_BITS) :
    layerBitZ (QuorumField.mkUniform t p) i j = p j := by
  unfold layerBitZ QuorumField.mkUniform
  simp only
  rw [map_const_eq_replicate, layerPairs_length]
  exact majList_replicate 25 (p j) (by omega)

lemma projX_mkUniform (t : Nat) (p : Fingerprint) :
    projX (QuorumField.mkUniform t p) = p := by
  funext j
  unfold projX
  have hmap : (List.finRange FIELD_SIZE).map
      (fun i => layerBitX (QuorumField.mkUniform t p) i j) =
      (List.finRange FIELD_SIZE).map (fun _ => p j) := by
    apply List.map_congr_left
    intro i _
    exact layerBitX_mkUniform t p i j
  rw [hmap, map_const_eq_replicate]
  simp only [List.length_finRange]
  exact majList_replicate FIELD_SIZE (p j) (by decide)

lemma projY_mkUniform (t : Nat) (p : Fingerprint) :
    projY (QuorumField.mkUniform t p) = p := by
  funext j
  unfold projY
  have hmap : (List.finRange FIELD_SIZE).map
      (fun i => layerBitY (QuorumField.mkUniform t p) i j) =
      (List.finRange FIELD_SIZE).map (fun _ => p j) := by
    apply List.map_congr_left
    intro i _
    exact layerBitY_mkUniform t p i j
  rw [hmap, map_const_eq_replicate]
  simp only [List.length_finRange]
  exact majList_replicate FIELD_SIZE (p j) (by decide)

lemma projZ_mkUniform (t : Nat) (p : Fingerprint) :
    projZ (QuorumField.mkUniform t p) = p := by
  funext j
  unfold projZ
  have hmap : (List.finRange FIELD_SIZE).map
      (fun i => layerBitZ (QuorumField.mkUniform t p) i j) =
      (List.finRange FIELD_SIZE).map (fun _ => p j) := by
    apply List.map_congr_left
    intro i _
    exact layerBitZ_mkUniform t p i j
  rw [hmap, map_const_eq_replicate]
  simp only [List.length_finRange]
  exact majList_replicate FIELD_SIZE (p j) (by decide)

lemma uniform_of_cells_const (f : QuorumField) (p : Fingerprint)
    (hu : ∀ c : CellIdx, f.cells c = p) :
    f = QuorumField.mkUniform f.threshold p := by
  cases f with
  | mk t cells =>
    unfold QuorumField.mkUniform
    simp only [QuorumField.mk.injEq, true_and]
    funext c
    exact hu c

/-! ## The claims -/

/-- C1: for every Field and every `max_steps`, `settle(max_steps)` returns
a pair `(steps_taken, converged)` with `steps_taken ≤ max_steps`, and
`converged` is `true` if and only if some full sweep produced zero cell
changes before `max_steps` sweeps were exhausted. -/
theorem settle_contract (f : QuorumField) (m : Nat) :
    (settle f m).2.1 ≤ m ∧
    ((settle f m).2.2 = true ↔
      ∃ k, k < m ∧ sweep (sweep^[k] f) = sweep^[k] f) :=
  ⟨settle_steps_le m f, settle_converged_iff m f⟩

/-- C2: for every Memory with capacity `c ≥ 1`, `len(Memory) ≤ c` holds
after every sequence of `add` operations, and after adding `c + k`
crystals (`k ≥ 1`) to a fresh Memory, `len(Memory) = c` (each `add` at
capacity evicts exactly one entry before inserting). -/
theorem memory_capacity_bound (cap k : Nat) (m : CrystalMemory)
    (cs : List Crystal4K)
    (hm : CrystalMemory.construct cap = Except.ok m)
    (hcap : 1 ≤ cap) (hk : 1 ≤ k) (hlen : cs.length = cap + k) :
    (m.addAll cs).entries.length = cap ∧
    ∀ ds : List Crystal4K, (m.addAll ds).entries.length ≤ cap := by
  have hm2 : m = ⟨[], cap, 0⟩ := by
    unfold CrystalMemory.construct at hm
    rw [if_pos hcap] at hm
    exact (Except.ok.injEq _ _).mp hm.symm |>.symm ▸ rfl
  subst hm2
  constructor
  · rw [addAll_entries_length cs ⟨[], cap, 0⟩ hcap (by simp)]
    simp only [List.length_nil, Nat.zero_add, hlen]
    omega
  · intro ds
    rw [addAll_entries_length ds ⟨[], cap, 0⟩ hcap (by simp)]
    exact Nat.min_le_right _ _

/-- C2 witness: a fresh Memory of capacity 1 holds exactly 1 entry after
2 additions. -/
theorem memory_capacity_bound_witness :
    (CrystalMemory.addAll ⟨[], 1, 0⟩ [zeroCrystal, zeroCrystal]).entries.length = 1 :=
  (memory_capacity_bound 1 1 ⟨[], 1, 0⟩ [zeroCrystal, zeroCrystal]
    (by simp [CrystalMemory.construct]) (by decide) (by decide) (by decide)).1

/-- C3: for every Field, `encode(field)` succeeds (it is a total pure
function) and its packed buffer is exactly 4096 bytes, independent of the
Field's bit contents. -/
theorem encode_fixed_size (f : QuorumField) :
    (Crystal4K.from_field f).toBytes.length = 4096 :=
  toBytes_length _

/-- C4: for every crystal `C` present in a Memory (added and not
evicted), `infer(C)` returns a result `R` with `similarity(R, C) = 0`,
and distance 0 means the two crystals are byte-identical. -/
theorem infer_exact_match (m : CrystalMemory) (C : Crystal4K)
    (hC : C ∈ m.entries) :
    ∃ R, m.infer C = some R ∧ Crystal4K.similarity R C = 0 ∧
      R.toBytes = C.toBytes := by
  rcases hent : m.entries with _ | ⟨e, es⟩
  · rw [hent] at hC
    simp at hC
  · rw [hent] at hC
    refine ⟨CrystalMemory.bestMatch C e es, ?_, ?_⟩
    · unfold CrystalMemory.infer
      rw [hent]
    · obtain ⟨hmem, hle, hall⟩ := bestMatch_spec C es e
      have hbound : Crystal4K.similarity (CrystalMemory.bestMatch C e es) C ≤
          Crystal4K.similarity C C := by
        rcases List.mem_cons.mp hC with hCe | hCes
        · subst hCe
          exact hle
        · exact hall C hCes
      rw [similarity_self] at hbound
      have hzero : Crystal4K.similarity (CrystalMemory.bestMatch C e es) C = 0 :=
        Nat.le_zero.mp hbound
      exact ⟨hzero, (similarity_eq_zero_iff _ _).mp hzero⟩

/-- C4 witness: inferring with the crystal just added to a fresh memory
produces a match. -/
theorem infer_exact_match_witness :
    ((CrystalMemory.new.add zeroCrystal).infer zeroCrystal).isSome = true := by
  obtain ⟨R, hR, _, _⟩ :=
    infer_exact_match (CrystalMemory.new.add zeroCrystal) zeroCrystal
      (by simp [CrystalMemory.add, CrystalMemory.new, DEFAULT_CAPACITY])
  rw [hR]
  rfl

/-- C5: `inject` and `settle` are pure functions of their inputs, so two
runs from bit-identical Field states with identical call sequences agree;
the substantive content is that each sweep reads only the single
consistent snapshot of the previous sweep, so walking the cells in any
full update order produces the same Field as the synchronous sweep. -/
theorem sweep_order_independent (f : QuorumField) (o₁ o₂ : List CellIdx)
    (h₁ : o₁.Perm allCells) (h₂ : o₂.Perm allCells) :
    sweepOrdered o₁ f = sweepOrdered o₂ f ∧ sweepOrdered o₁ f = sweep f := by
  have e₁ := sweepOrdered_perm f o₁ h₁
  have e₂ := sweepOrdered_perm f o₂ h₂
  rw [e₁, e₂]
  exact ⟨rfl, rfl⟩

/-- C5 witness: the canonical order instantiates the theorem. -/
theorem sweep_order_independent_witness :
    sweepOrdered allCells (QuorumField.mkUniform 4 zeroPattern) =
      sweep (QuorumField.mkUniform 4 zeroPattern) :=
  (sweep_order_independent (QuorumField.mkUniform 4 zeroPattern) allCells allCells
    (List.Perm.refl allCells) (List.Perm.refl allCells)).2

/-- C6: if `settle(max_steps)` reported `converged = true`, the resulting
Field is a fixed point of the relaxation rule, and a subsequent
`settle(1)` reports immediate convergence with `steps_taken = 0` leaving
every bit unchanged. -/
theorem converged_is_attractor (f : QuorumField) (m : Nat)
    (hconv : (settle f m).2.2 = true) :
    sweep (settle f m).1 = (settle f m).1 ∧
    settle (settle f m).1 1 = ((settle f m).1, 0, true) := by
  have hfix := settle_fst_fixed m f hconv
  exact ⟨hfix, settle_of_fixed _ hfix 1 (by decide)⟩

/-- C6 witness: a uniform field settles immediately, and the settled
field is an attractor. -/
theorem converged_is_attractor_witness :
    sweep (settle (QuorumField.mkUniform 4 zeroPattern) 1).1 =
      (settle (QuorumField.mkUniform 4 zeroPattern) 1).1 ∧
    settle (settle (QuorumField.mkUniform 4 zeroPattern) 1).1 1 =
      ((settle (QuorumField.mkUniform 4 zeroPattern) 1).1, 0, true) :=
  converged_is_attractor (QuorumField.mkUniform 4 zeroPattern) 1
    (by rw [settle_of_fixed _ (sweep_mkUniform 4 zeroPattern) 1 (by decide)])

/-- C7: for every uniform Field (all 125 cells hold the same 10,000-bit
vector), `decode(encode(field))` reproduces that Field exactly, bit for
bit and including the threshold metadata; `decode` is a total Lean
function, hence deterministic and never failing. -/
theorem uniform_round_trip (f : QuorumField) (p : Fingerprint)
    (hu : ∀ c : CellIdx, f.cells c = p) :
    Crystal4K.decode (Crystal4K.from_field f) = f := by
  rw [uniform_of_cells_const f p hu]
  unfold Crystal4K.decode Crystal4K.from_field
  simp only [projX_mkUniform, projY_mkUniform, projZ_mkUniform]
  unfold QuorumField.mkUniform
  simp only [QuorumField.mk.injEq, true_and]
  funext c j
  exact maj3_self (p j)

/-- C7 witness: the all-zero uniform field round-trips exactly. -/
theorem uniform_round_trip_witness :
    Crystal4K.decode (Crystal4K.from_field (QuorumField.mkUniform 4 zeroPattern)) =
      QuorumField.mkUniform 4 zeroPattern :=
  uniform_round_trip (QuorumField.mkUniform 4 zeroPattern) zeroPattern
    (fun _ => rfl)

/-- C8: Field construction with threshold `t` succeeds iff `1 ≤ t ≤ 6`,
in which case it yields the all-zero grid; outside that range it fails
with a configuration error at construction time — rejected, never
clamped, never deferred. -/
theorem construct_field_valid (t : Nat) :
    ((∃ f, QuorumField.new t = Except.ok f) ↔ (1 ≤ t ∧ t ≤ 6)) ∧
    (∀ f, QuorumField.new t = Except.ok f →
      f = QuorumField.mkUniform t zeroPattern) ∧
    (¬(1 ≤ t ∧ t ≤ 6) →
      QuorumField.new t = Except.error ConfigError.invalidThreshold) := by
  by_cases h : 1 ≤ t ∧ t ≤ 6
  · refine ⟨⟨fun _ => h,
      fun _ => ⟨QuorumField.mkUniform t zeroPattern, ?_⟩⟩, ?_,
      fun habs => absurd h habs⟩
    · unfold QuorumField.new
      rw [if_pos h]
    · intro f hf
      unfold QuorumField.new at hf
      rw [if_pos h] at hf
      exact ((Except.ok.injEq _ _).mp hf).symm
  · refine ⟨⟨?_, fun habs => absurd habs h⟩, ?_, ?_⟩
    · rintro ⟨f, hf⟩
      unfold QuorumField.new at hf
      rw [if_neg h] at hf
      exact absurd hf (by simp)
    · intro f hf
      unfold QuorumField.new at hf
      rw [if_neg h] at hf
      exact absurd hf (by simp)
    · intro _
      unfold QuorumField.new
      rw [if_neg h]

/-- C8 witness: threshold 4 is accepted with the all-zero grid; threshold
0 is rejected with a configuration error. -/
theorem construct_field_valid_witness :
    QuorumField.new 4 = Except.ok (QuorumField.mkUniform 4 zeroPattern) ∧
    QuorumField.new 0 = Except.error ConfigError.invalidThreshold := by
  constructor
  · obtain ⟨f, hf⟩ := (construct_field_valid 4).1.mpr (by decide)
    have h2 := (construct_field_valid 4).2.1 f hf
    rw [h2] at hf
    exact hf
  · exact (construct_field_valid 0).2.2 (by decide)

/-- C9: for every query crystal, `infer` on an empty Memory returns the
explicit no-match result `none` (never an error), and on a Memory with at
least one entry it returns some crystal. -/
theorem infer_total (m : CrystalMemory) (q : Crystal4K) :
    (m.entries = [] → m.infer q = none) ∧
    (m.entries ≠ [] → ∃ R, m.infer q = some R) := by
  rcases hent : m.entries with _ | ⟨e, es⟩
  · refine ⟨fun _ => ?_, fun habs => absurd rfl habs⟩
    unfold CrystalMemory.infer
    rw [hent]
  · refine ⟨fun habs => absurd habs (List.cons_ne_nil e es),
      fun _ => ⟨CrystalMemory.bestMatch q e es, ?_⟩⟩
    unfold CrystalMemory.infer
    rw [hent]

/-- C9 witness: the fresh empty memory answers `none`. -/
theorem infer_total_witness :
    CrystalMemory.new.infer zeroCrystal = none :=
  (infer_total CrystalMemory.new zeroCrystal).1 rfl

/-- C10: `CrystalMemory::new()` takes no capacity argument, cannot fail
(it is a total constructor), and yields an empty memory whose capacity is
the public constant `DEFAULT_CAPACITY` (which is at least 1), so no
invalid capacity can be supplied at this interface. -/
theorem new_default_capacity :
    CrystalMemory.new.capacity = DEFAULT_CAPACITY ∧
    CrystalMemory.new.entries = [] ∧ 1 ≤ DEFAULT_CAPACITY :=
  ⟨rfl, rfl, by norm_num [DEFAULT_CAPACITY]⟩

end Ladybug
